import Mathlib

/-!
# Verification of the cooklang ingredient indexer core

Shallow embedding of `src/lib.rs` of the `cooklang-ingredient-indexer`
repository.  Text is modelled as `List Char`; a filesystem path is modelled
as its list of components (`List (List Char)`), matching how Rust's `Path`
API (`strip_prefix`, `file_stem`, `parent`, `components`) treats a path.
Rust's `HashMap<String, Vec<PathBuf>>` is modelled as the partial function
`Name → Option (List RPath)` it denotes (for the renderer, which iterates
the map, as a key/value association list).  Byte-level details kept: the
`urlencoding::encode` function is modelled down to UTF-8 bytes and
uppercase percent escapes, and the extraction follows the regex
`@([^{@\n]+)(?:\x7b[^}]*\x7d)?` step by step.  `Char.toLower` /
`Char.isWhitespace` stand in for Rust's Unicode case folding and trimming;
they agree on ASCII text.
-/

namespace CooklangIndexer

/-- An ingredient name, as the list of its characters. -/
abbrev Name := List Char

/-- A filesystem path, as its list of components (Rust `PathBuf`). -/
abbrev RPath := List (List Char)

/-! ## Extractor: the regex `@([^{@\n]+)(?:\x7b[^}]*\x7d)?` from `index_recipes` -/

/-- Characters allowed in the captured name: the class `[^{@\n]`. -/
def nameChar (c : Char) : Bool := !(c = '@' || c = '\x7b' || c = '\n')

/-- Rust `str::trim`: strip leading and trailing whitespace. -/
def trimChars (l : List Char) : List Char :=
  ((l.dropWhile Char.isWhitespace).reverse.dropWhile Char.isWhitespace).reverse

/-- The normalization `cap[1].trim().to_lowercase()` applied to each capture. -/
def normalizeName (l : List Char) : List Char := (trimChars l).map Char.toLower

/-- The optional group `(?:\x7b[^}]*\x7d)?`: if the text after the capture starts
with an open brace that is eventually closed, consume through the first
close brace; otherwise consume nothing. -/
def dropAnnot : List Char → List Char
  | '\x7b' :: tail =>
      if tail.contains '\x7d' then (tail.dropWhile (fun c => c ≠ '\x7d')).drop 1
      else '\x7b' :: tail
  | l => l

/-- One pass of `captures_iter`: scan left to right; at each `@` try to capture
a maximal nonempty run of `nameChar`s, then drop a brace annotation if one
follows; search resumes at the end of the match.  `fuel` bounds recursion
depth and is irrelevant whenever `fuel ≥ l.length` (proved below). -/
def extractAux : Nat → List Char → List (List Char)
  | 0, _ => []
  | _ + 1, [] => []
  | fuel + 1, c :: rest =>
    if c = '@' then
      let r := rest.takeWhile nameChar
      if r = [] then extractAux fuel rest
      else normalizeName r :: extractAux fuel (dropAnnot (rest.drop r.length))
    else extractAux fuel rest

/-- The ingredient list extracted from one file's content
(`ingredient_regex.captures_iter(&content).map(|cap| cap[1].trim().to_lowercase())`). -/
def extractList (content : List Char) : List (List Char) :=
  extractAux content.length content

/-! ## Path helpers (Rust `Path::file_stem`, `Path::extension`) -/

/-- Rust `Path::file_stem` on one final component: the portion before the last
dot, except that a name without a dot, or whose only dot is the leading
character, is its own stem. -/
def componentStem (name : List Char) : List Char :=
  match name.reverse.dropWhile (fun c => c ≠ '.') with
  | [] => name
  | _ :: rest => if rest = [] then name else rest.reverse

/-- Rust `Path::extension` on one final component. -/
def componentExt (name : List Char) : Option (List Char) :=
  match name.reverse.dropWhile (fun c => c ≠ '.') with
  | [] => none
  | _ :: rest =>
      if rest = [] then none
      else some ((name.reverse.takeWhile (fun c => c ≠ '.')).reverse)

/-- `entry.path().extension()`: the extension of the last path component. -/
def extensionOf (p : RPath) : Option (List Char) := p.getLast?.bind componentExt

/-- Join path components with `/` (Rust `Path::to_str` on a normal path). -/
def joinComponents : RPath → List Char
  | [] => []
  | [x] => x
  | x :: xs => x ++ '/' :: joinComponents xs

/-! ## URL Mapper: `path_to_url` and `urlencoding::encode` -/

/-- Uppercase hexadecimal digit, for `n < 16`. -/
def hexDigit (n : Nat) : Char := if n < 10 then Char.ofNat (48 + n) else Char.ofNat (55 + n)

/-- UTF-8 encoding of a scalar value, as its list of byte values. -/
def utf8Bytes (n : Nat) : List Nat :=
  if n < 128 then [n]
  else if n < 2048 then [192 + n / 64, 128 + n % 64]
  else if n < 65536 then [224 + n / 4096, 128 + n / 64 % 64, 128 + n % 64]
  else [240 + n / 262144, 128 + n / 4096 % 64, 128 + n / 64 % 64, 128 + n % 64]

/-- A percent-escaped byte, e.g. `%2F`. -/
def pctByte (b : Nat) : List Char := ['%', hexDigit (b / 16), hexDigit (b % 16)]

/-- The characters the `urlencoding` crate leaves unescaped:
ASCII alphanumerics and `-`, `_`, `.`, `~`. -/
def isUnreserved (c : Char) : Bool :=
  c.isAlphanum || c = '-' || c = '_' || c = '.' || c = '~'

/-- `urlencoding::encode` on one character: kept if unreserved, otherwise each
of its UTF-8 bytes is percent-escaped (uppercase hex). -/
def encodeChar (c : Char) : List Char :=
  if isUnreserved c then [c] else (utf8Bytes c.toNat).flatMap pctByte

/-- `urlencoding::encode` on a string. -/
def urlencode (l : List Char) : List Char := l.flatMap encodeChar

/-- Rust `base_url.trim_end_matches('/')`. -/
def trimEndSlashes (l : List Char) : List Char :=
  (l.reverse.dropWhile (fun c => c = '/')).reverse

/-- `relative_path.file_stem().and_then(|s| s.to_str()).unwrap_or("unknown")`. -/
def stemOf (rel : RPath) : List Char :=
  match rel.getLast? with
  | none => "unknown".data
  | some nm => componentStem nm

/-- The `final_path` computed inside `path_to_url`: parent directory joined to
the file stem with a forward slash, or the bare stem if there is no parent. -/
def finalPathOf (rel : RPath) : List Char :=
  let parent := joinComponents rel.dropLast
  if parent = [] then stemOf rel else parent ++ '/' :: stemOf rel

/-- `path_to_url(path, base_url, base_dir)` from `src/lib.rs`:
strip `base_dir` (falling back to the full path), drop the extension, join
parent and stem, percent-encode, and append to the slash-trimmed base URL. -/
def path_to_url (path : RPath) (base_url : List Char) (base_dir : RPath) : List Char :=
  let rel := if base_dir.isPrefixOf path then path.drop base_dir.length else path
  trimEndSlashes base_url ++ '/' :: urlencode (finalPathOf rel)

/-! ## Indexer: `index_recipes` and `create_ingredient_index` -/

/-- `struct Recipe` from `src/lib.rs`. -/
structure Recipe where
  path : RPath
  ingredients : List Name
deriving DecidableEq

/-- One entry yielded by the (already error-filtered) `WalkDir` traversal:
its path, and the result of `fs::read_to_string` on it (`none` models a
read or decode failure). -/
structure FileEntry where
  path : RPath
  content : Option (List Char)
deriving DecidableEq

/-- `index_recipes` from `src/lib.rs`: keep entries with extension `cook`,
read each (`?` propagates a read failure as an error aborting the whole
scan), extract ingredients, and record a `Recipe` when the ingredient list
is nonempty. -/
def index_recipes : List FileEntry → Except Unit (List Recipe)
  | [] => .ok []
  | e :: rest =>
    if extensionOf e.path = some ("cook".data) then
      match e.content with
      | none => .error ()
      | some content =>
        match index_recipes rest with
        | .error err => .error err
        | .ok rs =>
          .ok (if extractList content = [] then rs
               else { path := e.path, ingredients := extractList content } :: rs)
    else index_recipes rest

/-- `index.entry(ingredient.clone()).or_default().push(recipe.path.clone())`. -/
def pushIngredient (m : Name → Option (List RPath)) (p : RPath) (i : Name) :
    Name → Option (List RPath) :=
  fun n => if n = i then some (((m i).getD []) ++ [p]) else m n

/-- The inner loop of `create_ingredient_index`: push the recipe's path once
per ingredient occurrence. -/
def addRecipe (m : Name → Option (List RPath)) (r : Recipe) : Name → Option (List RPath) :=
  r.ingredients.foldl (fun acc i => pushIngredient acc r.path i) m

/-- The `HashMap` contents after the accumulation loop of
`create_ingredient_index`, before sorting. -/
def rawIndex (recipes : List Recipe) : Name → Option (List RPath) :=
  recipes.foldl addRecipe (fun _ => none)

/-- `create_ingredient_index` from `src/lib.rs`: accumulate, then sort each
path list (`paths.sort()`). -/
def create_ingredient_index (recipes : List Recipe) : Name → Option (List RPath) :=
  fun n => (rawIndex recipes n).map (List.insertionSort (· ≤ ·))

/-- `IngredientIndex::get_recipes_for_ingredient`: a plain `HashMap::get`. -/
def get_recipes_for_ingredient (index : Name → Option (List RPath)) (ingredient : Name) :
    Option (List RPath) :=
  index ingredient

/-! ## Extractor lemmas: the fuel of `extractAux` is irrelevant once it
dominates the input length, giving clean rewriting rules for `extractList`. -/

theorem dropAnnot_length_le (l : List Char) : (dropAnnot l).length ≤ l.length := by
  match l with
  | [] => exact Nat.le_refl _
  | c :: tail =>
    by_cases hc : c = '\x7b'
    · subst hc
      simp only [dropAnnot]
      split
      · have h1 : ((tail.dropWhile (fun c => c ≠ '\x7d')).drop 1).length
            ≤ (tail.dropWhile (fun c => c ≠ '\x7d')).length := by
          simp [List.length_drop]
        have h2 : (tail.dropWhile (fun c => c ≠ '\x7d')).length ≤ tail.length :=
          (List.dropWhile_sublist (fun c => c ≠ '\x7d')).length_le
        simp only [List.length_cons]
        omega
      · exact Nat.le_refl _
    · have : dropAnnot (c :: tail) = c :: tail := by
        unfold dropAnnot
        split
        · simp_all
        · rfl
      rw [this]

theorem extractAux_fuel_succ (f : Nat) : ∀ l : List Char, l.length ≤ f →
    extractAux (f + 1) l = extractAux f l := by
  induction f with
  | zero =>
    intro l hl
    have : l = [] := List.eq_nil_of_length_eq_zero (Nat.le_zero.mp hl)
    subst this; rfl
  | succ f ih =>
    intro l hl
    match l with
    | [] => rfl
    | c :: rest =>
      have hr : rest.length ≤ f := by
        simp only [List.length_cons] at hl; omega
      by_cases hc : c = '@'
      · by_cases hE : rest.takeWhile nameChar = []
        · simp only [extractAux, hc, if_true, hE, if_pos rfl]
          exact ih rest hr
        · have hd : (dropAnnot (rest.drop (rest.takeWhile nameChar).length)).length ≤ f := by
            have h1 := dropAnnot_length_le (rest.drop (rest.takeWhile nameChar).length)
            have h2 : (rest.drop (rest.takeWhile nameChar).length).length ≤ rest.length := by
              simp [List.length_drop]
            omega
          simp only [extractAux, hc, if_true, hE, if_neg hE]
          rw [ih rest hr, ih _ hd]
      · simp only [extractAux, hc, if_false]
        exact ih rest hr

theorem extractAux_fuel_ge (f : Nat) (l : List Char) (h : l.length ≤ f) :
    extractAux f l = extractAux l.length l := by
  obtain ⟨k, rfl⟩ := Nat.exists_eq_add_of_le h
  clear h
  induction k with
  | zero => rfl
  | succ k ih =>
    have : l.length + (k + 1) = (l.length + k) + 1 := rfl
    rw [this, extractAux_fuel_succ (l.length + k) l (Nat.le_add_right _ _), ih]

theorem extractList_skip (c : Char) (rest : List Char) (hc : c ≠ '@') :
    extractList (c :: rest) = extractList rest := by
  show extractAux (rest.length + 1) (c :: rest) = extractAux rest.length rest
  simp only [extractAux, hc, if_false]

theorem extractList_at_empty (rest : List Char) (h : rest.takeWhile nameChar = []) :
    extractList ('@' :: rest) = extractList rest := by
  show extractAux (rest.length + 1) ('@' :: rest) = extractAux rest.length rest
  simp only [extractAux, if_true, h, if_pos rfl]

theorem extractList_at (rest : List Char) (h : rest.takeWhile nameChar ≠ []) :
    extractList ('@' :: rest) =
      normalizeName (rest.takeWhile nameChar)
        :: extractList (dropAnnot (rest.drop (rest.takeWhile nameChar).length)) := by
  show extractAux (rest.length + 1) ('@' :: rest) = _
  simp only [extractAux, if_true, if_neg h, if_pos rfl]
  congr 1
  apply extractAux_fuel_ge
  have h1 := dropAnnot_length_le (rest.drop (rest.takeWhile nameChar).length)
  have h2 : (rest.drop (rest.takeWhile nameChar).length).length ≤ rest.length := by
    simp [List.length_drop]
  omega

theorem extractList_append_no_at (p l : List Char) (hp : ∀ c ∈ p, c ≠ '@') :
    extractList (p ++ l) = extractList l := by
  induction p with
  | nil => rfl
  | cons c p ih =>
    have hc : c ≠ '@' := hp c (List.mem_cons_self c p)
    rw [List.cons_append, extractList_skip c _ hc,
      ih (fun x hx => hp x (List.mem_cons_of_mem c hx))]

theorem dropAnnot_cons_ne (c : Char) (l : List Char) (hc : c ≠ '\x7b') :
    dropAnnot (c :: l) = c :: l := by
  unfold dropAnnot
  split
  · simp_all
  · rfl

theorem takeWhile_append_of_all {q : Char → Bool} (X l : List Char)
    (hX : ∀ c ∈ X, q c = true) :
    (X ++ l).takeWhile q = X ++ l.takeWhile q := by
  induction X with
  | nil => rfl
  | cons c X ih =>
    simp only [List.cons_append, List.takeWhile_cons, hX c (List.mem_cons_self c X), if_true]
    rw [ih fun x hx => hX x (List.mem_cons_of_mem c hx)]

theorem dropWhile_append_to_close (ann rest : List Char) (hann : ∀ c ∈ ann, c ≠ '\x7d') :
    (ann ++ '\x7d' :: rest).dropWhile (fun c => c ≠ '\x7d') = '\x7d' :: rest := by
  induction ann with
  | nil => simp [List.dropWhile_cons]
  | cons c ann ih =>
    simp only [List.cons_append, List.dropWhile_cons]
    rw [if_pos (by simp [hann c (List.mem_cons_self c ann)])]
    exact ih fun x hx => hann x (List.mem_cons_of_mem c hx)

/-- C4: extraction applied to `Add @chicken{1 kg} and @onion, diced.` does NOT
produce `["chicken", "onion"]`: the second capture runs to the end of the
input (no `@`, `\x7b` or newline terminates it) and trimming removes only
whitespace, so `", diced."` stays in the name.  This refutes the claim's
expected output on the code as written. -/
theorem c4_counterexample :
    extractList "Add @chicken\x7b1 kg\x7d and @onion, diced.".data
      ≠ ["chicken".data, "onion".data] := by decide

/-- C4 (amended): extraction applied to the file content
`Add @chicken{1 kg} and @onion, diced.` produces exactly the ingredient
sequence `["chicken", "onion, diced."]`, in that order: the brace
annotation after `chicken` is discarded, and the second name captures
through the end of the input per the marker-termination rule. -/
theorem c4_extraction_example :
    extractList "Add @chicken\x7b1 kg\x7d and @onion, diced.".data
      = ["chicken".data, "onion, diced.".data] := by decide

/-- C5: for every marker occurrence `@X{ann}` or `@X` (X nonempty and free of
`@`, open-brace and newline, the bare form delimited by end of input, a
following marker, or a newline), the produced name is exactly `X` trimmed
and lower-cased (`normalizeName X`), and the brace annotation is consumed
without ever entering the name. -/
theorem c5_marker_capture
    (p X ann rest1 rest2 : List Char)
    (hp : ∀ c ∈ p, c ≠ '@')
    (hX : X ≠ [])
    (hXname : ∀ c ∈ X, nameChar c = true)
    (hann : ∀ c ∈ ann, c ≠ '\x7d')
    (hrest2 : rest2 = [] ∨ rest2.head? = some '@' ∨ rest2.head? = some '\n') :
    extractList (p ++ '@' :: (X ++ '\x7b' :: (ann ++ '\x7d' :: rest1)))
        = normalizeName X :: extractList rest1
    ∧ extractList (p ++ '@' :: (X ++ rest2)) = normalizeName X :: extractList rest2 := by
  constructor
  · rw [extractList_append_no_at p _ hp]
    have htw : (X ++ '\x7b' :: (ann ++ '\x7d' :: rest1)).takeWhile nameChar = X := by
      rw [takeWhile_append_of_all X _ hXname]
      simp [List.takeWhile_cons, nameChar]
    rw [extractList_at _ (by rw [htw]; exact hX), htw, List.drop_left]
    have hcont : ('\x7b' :: (ann ++ '\x7d' :: rest1)) = '\x7b' :: (ann ++ '\x7d' :: rest1) := rfl
    show normalizeName X :: extractList (dropAnnot ('\x7b' :: (ann ++ '\x7d' :: rest1))) = _
    congr 1
    have hc : (ann ++ '\x7d' :: rest1).contains '\x7d' = true := by
      have : '\x7d' ∈ ann ++ '\x7d' :: rest1 :=
        List.mem_append_right ann (List.mem_cons_self _ _)
      exact List.elem_iff.mpr this
    simp only [dropAnnot, hc, if_true, if_pos hc]
    rw [dropWhile_append_to_close ann rest1 hann]
    rfl
  · rw [extractList_append_no_at p _ hp]
    have htw2 : rest2.takeWhile nameChar = [] := by
      rcases hrest2 with h | h | h
      · rw [h]; rfl
      · rcases rest2 with _ | ⟨c, t⟩
        · rfl
        · simp only [List.head?_cons, Option.some.injEq] at h
          subst h
          simp [List.takeWhile_cons, nameChar]
      · rcases rest2 with _ | ⟨c, t⟩
        · rfl
        · simp only [List.head?_cons, Option.some.injEq] at h
          subst h
          simp [List.takeWhile_cons, nameChar]
    have htw : (X ++ rest2).takeWhile nameChar = X := by
      rw [takeWhile_append_of_all X _ hXname, htw2, List.append_nil]
    rw [extractList_at _ (by rw [htw]; exact hX), htw, List.drop_left]
    congr 2
    rcases hrest2 with h | h | h
    · rw [h]; rfl
    · rcases rest2 with _ | ⟨c, t⟩
      · rfl
      · simp only [List.head?_cons, Option.some.injEq] at h
        subst h
        exact dropAnnot_cons_ne _ _ (by decide)
    · rcases rest2 with _ | ⟨c, t⟩
      · rfl
      · simp only [List.head?_cons, Option.some.injEq] at h
        subst h
        exact dropAnnot_cons_ne _ _ (by decide)

/-- Witness for C5 at concrete inputs: `@ Chicken {1 kg}` yields the trimmed,
lower-cased name `chicken` with the annotation discarded, and the bare form
`@ Chicken ` terminated by a following marker behaves identically. -/
theorem c5_marker_capture_witness :
    normalizeName " Chicken ".data = "chicken".data
    ∧ extractList ("Add ".data ++ '@' ::
          (" Chicken ".data ++ '\x7b' :: ("1 kg".data ++ '\x7d' :: " done".data)))
        = normalizeName " Chicken ".data :: extractList " done".data
    ∧ extractList ("Add ".data ++ '@' :: (" Chicken ".data ++ "@next\n".data))
        = normalizeName " Chicken ".data :: extractList "@next\n".data := by
  have h := c5_marker_capture ("Add ".data) (" Chicken ".data) ("1 kg".data)
      (" done".data) ("@next\n".data)
      (by decide) (by decide) (by decide) (by decide) (Or.inr (Or.inl (by decide)))
  exact ⟨by decide, h.1, h.2⟩

/-! ## Indexer lemmas: characterizing the accumulated `HashMap` contents -/

/-- Number of occurrences of `n` in an ingredient list. -/
def countOcc (n : Name) : List Name → Nat
  | [] => 0
  | i :: rest => (if i = n then 1 else 0) + countOcc n rest

/-- Number of occurrences of `p` in a path list. -/
def countPath (p : RPath) : List RPath → Nat
  | [] => 0
  | q :: rest => (if q = p then 1 else 0) + countPath p rest

/-- The path list accumulated for key `n` before sorting: for each recipe in
order, its path once per occurrence of `n` among its ingredients. -/
def occList (n : Name) (recipes : List Recipe) : List RPath :=
  recipes.flatMap (fun r => List.replicate (countOcc n r.ingredients) r.path)

/-- Appending to a map entry that is created on first use (`or_default`). -/
def optAppend (o : Option (List RPath)) (xs : List RPath) : Option (List RPath) :=
  if xs = [] then o else some (o.getD [] ++ xs)

theorem optAppend_assoc (o : Option (List RPath)) (xs ys : List RPath) :
    optAppend (optAppend o xs) ys = optAppend o (xs ++ ys) := by
  rcases hx : xs with _ | ⟨a, xs'⟩
  · simp [optAppend]
  · rcases hy : ys with _ | ⟨b, ys'⟩
    · simp [optAppend]
    · simp [optAppend, List.append_assoc]

theorem foldl_pushIngredient (ings : List Name) (m : Name → Option (List RPath))
    (p : RPath) (n : Name) :
    (ings.foldl (fun acc i => pushIngredient acc p i) m) n
      = optAppend (m n) (List.replicate (countOcc n ings) p) := by
  induction ings generalizing m with
  | nil => simp [countOcc, optAppend]
  | cons i ings ih =>
    rw [List.foldl_cons, ih]
    by_cases hin : n = i
    · subst hin
      have hm : pushIngredient m p n n = some ((m n).getD [] ++ [p]) := by
        simp [pushIngredient]
      rw [hm]
      have hcnt : countOcc n (n :: ings) = 1 + countOcc n ings := by
        simp [countOcc]
      rw [hcnt]
      rcases hk : countOcc n ings with _ | k
      · simp [optAppend]
      · have h1 : List.replicate (k + 1) p ≠ [] := by simp
        have h2 : List.replicate (1 + (k + 1)) p ≠ [] := by simp
        simp only [optAppend, if_neg h1, if_neg h2, Option.getD_some]
        have hrep : List.replicate (1 + (k + 1)) p = [p] ++ List.replicate (k + 1) p := by
          rw [Nat.add_comm 1 (k + 1)]
          simp [List.replicate_succ]
        rw [hrep, ← List.append_assoc]
    · have hm : pushIngredient m p i n = m n := by
        simp [pushIngredient, hin]
      have hcnt : countOcc n (i :: ings) = countOcc n ings := by
        have hni : i ≠ n := fun h => hin h.symm
        simp [countOcc, hni]
      rw [hm, hcnt]

theorem foldl_addRecipe (recipes : List Recipe) (m : Name → Option (List RPath)) (n : Name) :
    (recipes.foldl addRecipe m) n = optAppend (m n) (occList n recipes) := by
  induction recipes generalizing m with
  | nil => simp [occList, optAppend]
  | cons r recipes ih =>
    rw [List.foldl_cons, ih]
    have : addRecipe m r n
        = optAppend (m n) (List.replicate (countOcc n r.ingredients) r.path) :=
      foldl_pushIngredient r.ingredients m r.path n
    rw [this, optAppend_assoc]
    rfl

theorem rawIndex_eq (l : List Recipe) (n : Name) :
    rawIndex l n = if occList n l = [] then none else some (occList n l) := by
  show (l.foldl addRecipe (fun _ => none)) n = _
  rw [foldl_addRecipe]
  simp [optAppend]

/-- C1 counterexample: in the recipe file `@chicken\n@chicken\n` the
normalized ingredient `chicken` is extracted twice, and the index built by
`create_ingredient_index` then lists that recipe's path TWICE under
`chicken` — the per-ingredient path list is sorted but not deduplicated,
refuting the `exactly once` claim. -/
theorem c1_counterexample :
    1 < countOcc ("chicken".data) (extractList "@chicken\n@chicken\n".data)
    ∧ countPath ["a.cook".data]
        ((create_ingredient_index
            [⟨["a.cook".data], extractList "@chicken\n@chicken\n".data⟩]
          ("chicken".data)).getD [])
        ≠ 1 := by decide

theorem countPath_append (p : RPath) (xs ys : List RPath) :
    countPath p (xs ++ ys) = countPath p xs + countPath p ys := by
  induction xs with
  | nil => simp [countPath]
  | cons x xs ih => simp [countPath, ih]; omega

theorem countPath_replicate (p q : RPath) (k : Nat) :
    countPath p (List.replicate k q) = if q = p then k else 0 := by
  induction k with
  | zero => simp [countPath]
  | succ k ih =>
    rw [List.replicate_succ]
    show (if q = p then 1 else 0) + countPath p (List.replicate k q) = _
    rw [ih]
    by_cases h : q = p
    · simp [h, Nat.add_comm]
    · simp [h]

theorem countPath_perm {l1 l2 : List RPath} (h : l1.Perm l2) (p : RPath) :
    countPath p l1 = countPath p l2 := by
  induction h with
  | nil => rfl
  | cons x _ ih => simp [countPath, ih]
  | swap x y l => simp only [countPath]; omega
  | trans _ _ ih1 ih2 => exact ih1.trans ih2

theorem countPath_occList (l : List Recipe) (n : Name) (p : RPath) :
    countPath p (occList n l)
      = (l.map (fun r => if r.path = p then countOcc n r.ingredients else 0)).sum := by
  induction l with
  | nil => rfl
  | cons r l ih =>
    show countPath p (List.replicate (countOcc n r.ingredients) r.path ++ occList n l) = _
    rw [countPath_append, countPath_replicate, ih]
    simp

/-- C1 (amended): for every recipe list, ingredient name and path, the number
of occurrences of that path in the ingredient's final (sorted) path list
equals the total number of times that ingredient was extracted from recipes
having that path — one entry per occurrence, duplicates retained, not one
entry per recipe. -/
theorem c1_path_multiplicity (l : List Recipe) (n : Name) (p : RPath) :
    countPath p ((create_ingredient_index l n).getD [])
      = (l.map (fun r => if r.path = p then countOcc n r.ingredients else 0)).sum := by
  rw [← countPath_occList]
  show countPath p (((rawIndex l n).map (List.insertionSort (· ≤ ·))).getD []) = _
  rw [rawIndex_eq]
  by_cases h : occList n l = []
  · simp [h]
  · simp only [if_neg h, Option.map_some', Option.getD_some]
    exact countPath_perm (List.perm_insertionSort _ _) p

/-- C6: the reverse index is a function of the multiset of recipes: any
permutation of the recipe list (any traversal order) yields the same map —
same keys, and the same sorted path list at every key. -/
theorem c6_order_independence (l1 l2 : List Recipe) (h : l1.Perm l2) :
    create_ingredient_index l1 = create_ingredient_index l2 := by
  funext n
  have hocc : (occList n l1).Perm (occList n l2) := h.flatMap_right _
  show ((rawIndex l1 n).map _) = ((rawIndex l2 n).map _)
  rw [rawIndex_eq, rawIndex_eq]
  by_cases h1 : occList n l1 = []
  · have h2 : occList n l2 = [] := by
      rw [h1] at hocc
      exact hocc.symm.eq_nil
    simp [h1, h2]
  · have h2 : occList n l2 ≠ [] := by
      intro he
      rw [he] at hocc
      exact h1 hocc.eq_nil
    simp only [if_neg h1, if_neg h2, Option.map_some']
    exact congrArg some
      (List.eq_of_perm_of_sorted
        ((List.perm_insertionSort _ _).trans (hocc.trans (List.perm_insertionSort _ _).symm))
        (List.sorted_insertionSort _ _) (List.sorted_insertionSort _ _))

/-- Witness for C6: two concrete recipe lists that are permutations of each
other produce identical indexes. -/
theorem c6_order_independence_witness :
    ([(⟨["a.cook".data], ["salt".data]⟩ : Recipe), ⟨["b.cook".data], ["salt".data]⟩].Perm
        [(⟨["b.cook".data], ["salt".data]⟩ : Recipe), ⟨["a.cook".data], ["salt".data]⟩])
    ∧ create_ingredient_index
          [⟨["a.cook".data], ["salt".data]⟩, ⟨["b.cook".data], ["salt".data]⟩]
        = create_ingredient_index
          [⟨["b.cook".data], ["salt".data]⟩, ⟨["a.cook".data], ["salt".data]⟩] :=
  ⟨List.Perm.swap _ _ _,
    c6_order_independence _ _ (List.Perm.swap _ _ _)⟩

theorem countOcc_eq_zero_of_not_mem (q : Name) (ings : List Name) (h : q ∉ ings) :
    countOcc q ings = 0 := by
  induction ings with
  | nil => rfl
  | cons i ings ih =>
    have hne : i ≠ q := fun he => h (he ▸ List.mem_cons_self i ings)
    show (if i = q then 1 else 0) + countOcc q ings = 0
    rw [if_neg hne, ih fun hm => h (List.mem_cons_of_mem i hm)]

theorem occList_eq_nil (q : Name) (l : List Recipe) (h : ∀ r ∈ l, q ∉ r.ingredients) :
    occList q l = [] := by
  induction l with
  | nil => rfl
  | cons r l ih =>
    show List.replicate (countOcc q r.ingredients) r.path ++ occList q l = []
    rw [countOcc_eq_zero_of_not_mem q _ (h r (List.mem_cons_self r l)),
      ih fun r' hr' => h r' (List.mem_cons_of_mem r hr')]
    rfl

/-- C9: lookup is an exact `HashMap::get`: on an index whose keys are all
normalized, a query that is not itself recorded returns `none`, even when
its normalized (trimmed, lower-cased) form IS recorded — no normalization
is applied to the query. -/
theorem c9_exact_lookup (l : List Recipe) (q : Name)
    (_hvariant : ∃ r ∈ l, normalizeName q ∈ r.ingredients)
    (hq : ∀ r ∈ l, q ∉ r.ingredients) :
    get_recipes_for_ingredient (create_ingredient_index l) q = none := by
  show ((rawIndex l q).map _) = none
  rw [rawIndex_eq, occList_eq_nil q l hq]
  rfl

/-- Witness for C9: an index recording only `chicken` returns `none` for the
query `Chicken`. -/
theorem c9_exact_lookup_witness :
    get_recipes_for_ingredient
        (create_ingredient_index [⟨["c.cook".data], ["chicken".data]⟩])
        ("Chicken".data)
      = none :=
  c9_exact_lookup _ _
    ⟨⟨["c.cook".data], ["chicken".data]⟩, by decide, by decide⟩
    (by decide)

/-! ## Indexer error propagation (C2) -/

/-- C2 counterexample: a scan whose first candidate file reads fine (and has
ingredients) but whose second candidate file fails to read does NOT skip
the unreadable file — `index_recipes` propagates the read error (`?` on
`fs::read_to_string`) and the whole scan fails instead of returning an
index covering the remaining files. -/
theorem c2_counterexample :
    index_recipes
        [⟨["a.cook".data], some "@chicken\n".data⟩, ⟨["b.cook".data], none⟩]
      = .error ()
    ∧ extractList "@chicken\n".data ≠ [] := by
  constructor
  · rfl
  · decide

/-- C2 (amended): if any candidate file with extension `cook` fails to read or
decode, `index_recipes` (and hence `build_index`) returns an error — the
per-file read failure is fatal to the scan.  Only directory-walk errors
(already absent from the entry list, by `filter_map(|e| e.ok())`) are
silently skipped. -/
theorem c2_read_failure_aborts (entries : List FileEntry)
    (h : ∃ e ∈ entries, extensionOf e.path = some ("cook".data) ∧ e.content = none) :
    index_recipes entries = .error () := by
  induction entries with
  | nil =>
    obtain ⟨e, he, -⟩ := h
    exact absurd he (List.not_mem_nil e)
  | cons e rest ih =>
    obtain ⟨e', he', hext, hcont⟩ := h
    rcases List.mem_cons.mp he' with rfl | hmem
    · simp [index_recipes, hext, hcont]
    · have herr := ih ⟨e', hmem, hext, hcont⟩
      by_cases hce : extensionOf e.path = some ("cook".data)
      · rcases hc : e.content with _ | content
        · simp [index_recipes, hce, hc]
        · simp [index_recipes, hce, hc, herr]
      · simp [index_recipes, hce, herr]

/-- Witness for C2 (amended) at the concrete two-entry scan. -/
theorem c2_read_failure_aborts_witness :
    index_recipes
        [⟨["a.cook".data], some "@chicken\n".data⟩, ⟨["b.cook".data], none⟩]
      = .error () :=
  c2_read_failure_aborts _
    ⟨⟨["b.cook".data], none⟩, by decide, by decide, rfl⟩

/-! ## URL Mapper lemmas (C7, C8, C10) -/

theorem char_toNat_lt (c : Char) : c.toNat < 1114112 := by
  have h : c.val.toNat.isValidChar := c.valid
  have h' : c.val.toNat < 55296 ∨ (57344 ≤ c.val.toNat ∧ c.val.toNat < 1114112) := h
  show c.val.toNat < 1114112
  omega

theorem utf8Bytes_lt (n : Nat) (hn : n < 1114112) : ∀ b ∈ utf8Bytes n, b < 256 := by
  intro b hb
  unfold utf8Bytes at hb
  split_ifs at hb with h1 h2 h3 <;> simp only [List.mem_cons, List.mem_singleton,
    List.not_mem_nil, or_false] at hb
  · omega
  · rcases hb with rfl | rfl <;> omega
  · rcases hb with rfl | rfl | rfl <;> omega
  · rcases hb with rfl | rfl | rfl | rfl <;> omega

theorem hexDigit_ne (n : Nat) (hn : n < 16) : hexDigit n ≠ ' ' ∧ hexDigit n ≠ '/' := by
  interval_cases n <;> exact ⟨by decide, by decide⟩

theorem urlencode_chars (l : List Char) : ∀ c ∈ urlencode l, c ≠ ' ' ∧ c ≠ '/' := by
  intro c hc
  obtain ⟨c0, _hc0, hmem⟩ := List.mem_flatMap.mp hc
  unfold encodeChar at hmem
  split_ifs at hmem with hu
  · have hcc : c = c0 := by simpa using hmem
    subst hcc
    constructor
    · intro h; rw [h] at hu; exact absurd hu (by decide)
    · intro h; rw [h] at hu; exact absurd hu (by decide)
  · obtain ⟨b, hbmem, hcb⟩ := List.mem_flatMap.mp hmem
    have hb : b < 256 := utf8Bytes_lt c0.toNat (char_toNat_lt c0) b hbmem
    have h16a : b / 16 < 16 := by omega
    have h16b : b % 16 < 16 := by omega
    have hcb' : c = '%' ∨ c = hexDigit (b / 16) ∨ c = hexDigit (b % 16) := by
      simpa [pctByte] using hcb
    rcases hcb' with rfl | rfl | rfl
    · exact ⟨by decide, by decide⟩
    · exact hexDigit_ne _ h16a
    · exact hexDigit_ne _ h16b

theorem encodeChar_mem_split (c : Char) (l : List Char) (h : c ∈ l) :
    ∃ s t, s ++ encodeChar c ++ t = urlencode l := by
  induction l with
  | nil => exact absurd h (List.not_mem_nil c)
  | cons a l ih =>
    have hcons : urlencode (a :: l) = encodeChar a ++ urlencode l := by
      simp [urlencode, List.flatMap_cons]
    rcases List.mem_cons.mp h with rfl | hmem
    · exact ⟨[], urlencode l, by rw [hcons]; rfl⟩
    · obtain ⟨s, t, hst⟩ := ih hmem
      refine ⟨encodeChar a ++ s, t, ?_⟩
      rw [hcons, ← hst]
      simp [List.append_assoc]

theorem joinComponents_ne_nil (xs : RPath) (hne : xs ≠ []) (hc : ∀ x ∈ xs, x ≠ []) :
    joinComponents xs ≠ [] := by
  match xs with
  | [] => exact absurd rfl hne
  | [x] => exact hc x (List.mem_singleton.mpr rfl)
  | x :: y :: ys =>
    show x ++ '/' :: joinComponents (y :: ys) ≠ []
    simp

/-- C7 counterexample: the claim quantifies over EVERY `base_url`, but the
base URL is copied verbatim into the result, so a base URL containing a
space (here `a b`) yields a URL with a raw space even for a path strictly
under `base_dir`. -/
theorem c7_counterexample :
    (["r".data] : RPath).isPrefixOf ["r".data, "a.cook".data] = true
    ∧ (["r".data, "a.cook".data] : RPath) ≠ ["r".data]
    ∧ ' ' ∈ path_to_url ["r".data, "a.cook".data] ("a b".data) ["r".data] := by decide

/-- C7 (amended): for every path strictly under `base_dir` and every
`base_url`, the URL is exactly the slash-trimmed `base_url`, a `/`, and a
percent-encoded path component; the encoded component never contains a raw
space (the copied `base_url` itself may). -/
theorem c7_url_shape (p : RPath) (base_url : List Char) (base_dir : RPath)
    (h1 : base_dir.isPrefixOf p = true) (_h2 : p ≠ base_dir) :
    ∃ enc, path_to_url p base_url base_dir = trimEndSlashes base_url ++ '/' :: enc
      ∧ ∀ c ∈ enc, c ≠ ' ' := by
  refine ⟨urlencode (finalPathOf (p.drop base_dir.length)), ?_, ?_⟩
  · simp [path_to_url, h1]
  · intro c hc
    exact (urlencode_chars _ c hc).1

/-- Witness for C7 (amended) at a concrete path with a space in its filename. -/
theorem c7_url_shape_witness :
    (["r".data] : RPath).isPrefixOf ["r".data, "soup".data, "a b.cook".data] = true
    ∧ (["r".data, "soup".data, "a b.cook".data] : RPath) ≠ ["r".data]
    ∧ ∃ enc, path_to_url ["r".data, "soup".data, "a b.cook".data] ("http://e/".data) ["r".data]
        = trimEndSlashes ("http://e/".data) ++ '/' :: enc ∧ ∀ c ∈ enc, c ≠ ' ' :=
  ⟨by decide, by decide, c7_url_shape _ _ _ (by decide) (by decide)⟩

/-- C8: when the path is not under `base_dir`, `path_to_url` does not fail: it
falls back to the full path unmodified — same parent/stem/extension-drop
and encoding pipeline applied to `p` itself. -/
theorem c8_fallback_full_path (p : RPath) (base_url : List Char) (base_dir : RPath)
    (h : ¬ base_dir.isPrefixOf p = true) :
    path_to_url p base_url base_dir
      = trimEndSlashes base_url ++ '/' :: urlencode (finalPathOf p) := by
  simp [path_to_url, h]

/-- Witness for C8 at a concrete path outside the base directory. -/
theorem c8_fallback_full_path_witness :
    ¬ (["e".data] : RPath).isPrefixOf ["d".data, "x.cook".data] = true
    ∧ path_to_url ["d".data, "x.cook".data] ("http://e".data) ["e".data]
        = trimEndSlashes ("http://e".data) ++ '/'
            :: urlencode (finalPathOf ["d".data, "x.cook".data]) :=
  ⟨by decide, c8_fallback_full_path _ _ _ (by decide)⟩

/-- C10: for a recipe in a proper subdirectory of `base_dir` (nonempty path
components), the encoded component after `base_url/` contains no raw `/`:
the separator joining parent and stem is percent-encoded, appearing as
`%2F`, because encoding is applied to the already-joined relative path. -/
theorem c10_separator_encoded (p : RPath) (base_url : List Char) (base_dir : RPath)
    (h1 : base_dir.isPrefixOf p = true)
    (h2 : base_dir.length + 2 ≤ p.length)
    (h3 : ∀ comp ∈ p, comp ≠ []) :
    ∃ enc, path_to_url p base_url base_dir = trimEndSlashes base_url ++ '/' :: enc
      ∧ '/' ∉ enc ∧ "%2F".data <:+: enc := by
  refine ⟨urlencode (finalPathOf (p.drop base_dir.length)), ?_, ?_, ?_⟩
  · simp [path_to_url, h1]
  · intro hc
    exact (urlencode_chars _ '/' hc).2 rfl
  · have hlen : 2 ≤ (p.drop base_dir.length).length := by
      rw [List.length_drop]
      omega
    have hcomp : ∀ x ∈ p.drop base_dir.length, x ≠ [] :=
      fun x hx => h3 x (List.mem_of_mem_drop hx)
    have hdl : (p.drop base_dir.length).dropLast ≠ [] := by
      intro he
      have hl := List.length_dropLast (p.drop base_dir.length)
      rw [he] at hl
      simp at hl
      omega
    have hparent : joinComponents (p.drop base_dir.length).dropLast ≠ [] :=
      joinComponents_ne_nil _ hdl fun x hx => hcomp x (List.mem_of_mem_dropLast hx)
    have hsl : '/' ∈ finalPathOf (p.drop base_dir.length) := by
      show '/' ∈ if joinComponents (p.drop base_dir.length).dropLast = []
          then stemOf (p.drop base_dir.length)
          else joinComponents (p.drop base_dir.length).dropLast
            ++ '/' :: stemOf (p.drop base_dir.length)
      rw [if_neg hparent]
      exact List.mem_append_right _ (List.mem_cons_self _ _)
    obtain ⟨s, t, hst⟩ := encodeChar_mem_split '/' _ hsl
    have henc : "%2F".data = encodeChar '/' := by decide
    exact ⟨s, t, by rw [henc]; exact hst⟩

/-- Witness for C10 at the concrete path `r/soup/chicken one.cook`. -/
theorem c10_separator_encoded_witness :
    (["r".data] : RPath).isPrefixOf ["r".data, "soup".data, "chicken one.cook".data] = true
    ∧ (["r".data] : RPath).length + 2 ≤ (["r".data, "soup".data, "chicken one.cook".data] : RPath).length
    ∧ (∀ comp ∈ (["r".data, "soup".data, "chicken one.cook".data] : RPath), comp ≠ [])
    ∧ ∃ enc, path_to_url ["r".data, "soup".data, "chicken one.cook".data]
          ("http://e".data) ["r".data]
        = trimEndSlashes ("http://e".data) ++ '/' :: enc
      ∧ '/' ∉ enc ∧ "%2F".data <:+: enc :=
  ⟨by decide, by decide, by decide,
    c10_separator_encoded _ _ _ (by decide) (by decide) (by decide)⟩

/-! ## Renderer: `generate_html_index` (C3) -/

/-- Literal open brace character, kept out of string literals. -/
def braceOpen : List Char := ['\x7b']

/-- Literal close brace character, kept out of string literals. -/
def braceClose : List Char := ['\x7d']

/-- The literal HTML/CSS template prefix from `generate_html_index`. -/
def htmlHeader : List Char :=
  "<!DOCTYPE html>\n<html lang=\"en\">\n<head>\n    <meta charset=\"UTF-8\">\n    <meta name=\"viewport\" content=\"width=device-width, initial-scale=1.0\">\n    <title>Recipe Ingredient Index</title>\n    <style>\n        body ".data
  ++ braceOpen
  ++ "\n            font-family: -apple-system, BlinkMacSystemFont, \"Segoe UI\", Roboto, sans-serif;\n            max-width: 800px;\n            margin: 0 auto;\n            padding: 20px;\n            line-height: 1.6;\n        ".data
  ++ braceClose ++ "\n        h1 ".data ++ braceOpen
  ++ "\n            color: #2c3e50;\n            border-bottom: 2px solid #eee;\n            padding-bottom: 10px;\n        ".data
  ++ braceClose ++ "\n        .ingredient ".data ++ braceOpen
  ++ "\n            margin: 20px 0;\n        ".data
  ++ braceClose ++ "\n        .ingredient-name ".data ++ braceOpen
  ++ "\n            font-weight: bold;\n            color: #34495e;\n            margin-bottom: 5px;\n        ".data
  ++ braceClose ++ "\n        .recipe-list ".data ++ braceOpen
  ++ "\n            margin-left: 20px;\n            list-style-type: none;\n        ".data
  ++ braceClose ++ "\n        .recipe-list li ".data ++ braceOpen
  ++ "\n            margin: 5px 0;\n        ".data
  ++ braceClose ++ "\n        a ".data ++ braceOpen
  ++ "\n            color: #3498db;\n            text-decoration: none;\n        ".data
  ++ braceClose ++ "\n        a:hover ".data ++ braceOpen
  ++ "\n            text-decoration: underline;\n        ".data
  ++ braceClose
  ++ "\n    </style>\n</head>\n<body>\n    <h1>Recipe Ingredient Index</h1>\n".data

/-- `HashMap::get` over the association-list view of the index used by the
renderer. -/
def alookup (n : Name) : List (Name × List RPath) → Option (List RPath)
  | [] => none
  | (k, v) :: rest => if k = n then some v else alookup n rest

/-- The link text: file stem with `-` and `_` replaced by spaces
(`unwrap_or("Unknown Recipe")` when there is no final component). -/
def displayName (rp : RPath) : List Char :=
  match rp.getLast? with
  | none => "Unknown Recipe".data
  | some nm =>
      (componentStem nm).map fun c => if c = '-' then ' ' else if c = '_' then ' ' else c

/-- One `<li>` line of the rendered recipe list. -/
def renderRecipeItem (base_url : List Char) (base_dir : RPath) (rp : RPath) : List Char :=
  "        <li><a href=\"".data ++ path_to_url rp base_url base_dir
    ++ "\">".data ++ displayName rp ++ "</a></li>\n".data

/-- One ingredient block of the rendered document: the ingredient's display
name and its recipe links, inserted verbatim (no escaping). -/
def renderIngredient (index : List (Name × List RPath)) (base_url : List Char)
    (base_dir : RPath) (ing : Name) : List Char :=
  "<div class=\"ingredient\">\n".data
    ++ "    <div class=\"ingredient-name\">".data ++ ing ++ "</div>\n".data
    ++ "    <ul class=\"recipe-list\">\n".data
    ++ (match alookup ing index with
        | none => []
        | some recipes => recipes.flatMap (renderRecipeItem base_url base_dir))
    ++ "    </ul>\n</div>\n".data

/-- `generate_html_index` from `src/lib.rs`: template prefix, one block per
ingredient in sorted key order, closing tags. -/
def generate_html_index (index : List (Name × List RPath)) (base_url : List Char)
    (base_dir : RPath) : List Char :=
  htmlHeader
    ++ (List.insertionSort (· ≤ ·) (index.map Prod.fst)).flatMap
        (renderIngredient index base_url base_dir)
    ++ "</body>\n</html>".data

theorem extendMiddle (x m h f : List Char) (hx : x <:+: m) : x <:+: h ++ m ++ f := by
  obtain ⟨s, t, rfl⟩ := hx
  exact ⟨h ++ s, t ++ f, by simp [List.append_assoc]⟩

set_option maxRecDepth 4000 in
/-- C3: evaluation of the renderer at an ingredient name `a<b` stored under a
recipe file `x<y.cook` shows that the `<` characters of both the
ingredient name and the file stem reach the HTML output raw: the exact
unescaped fragments `">a<b</div>` and `">x<y</a>` occur in the rendered
document.  The code performs no HTML escaping, contradicting the claim's
escaping requirement. -/
theorem c3_no_escaping_eval :
    ("\">a<b</div>".data <:+:
        generate_html_index [("a<b".data, [["x<y.cook".data]])] ("http://e".data) [])
    ∧ ("\">x<y</a>".data <:+:
        generate_html_index [("a<b".data, [["x<y.cook".data]])] ("http://e".data) []) := by
  have hdef : generate_html_index [("a<b".data, [["x<y.cook".data]])] ("http://e".data) []
      = htmlHeader
        ++ ((List.insertionSort (· ≤ ·)
              ([(("a<b".data : Name), [["x<y.cook".data]])].map Prod.fst)).flatMap
            (renderIngredient [("a<b".data, [["x<y.cook".data]])] ("http://e".data) []))
        ++ "</body>\n</html>".data := rfl
  constructor
  · rw [hdef]
    apply extendMiddle
    decide
  · rw [hdef]
    apply extendMiddle
    decide

end CooklangIndexer
